import Mathlib

/-!
Shallow embedding of the `copyright` tool (repository richardwilkes/copyright,
file `src/copyright.go`).  The tool inserts or replaces a copyright header at
the top of source files.  Text is modelled as `List Char` (the Go code works
on bytes; all relevant behavior is byte-wise).  The three core routines are
translated below:

* `processTemplate` — `processTemplate` in copyright.go (lines 132-161):
  renders the template into the literal header text.
* `loadFile` — `loadFile` in copyright.go (lines 205-267): the per-style
  state machine that strips a leading comment block and returns the
  remainder buffer.
* `processFileOutput` — the write sequence of `processFile` in copyright.go
  (lines 184-197): header, conditional separating newline, remainder.
* `buildExtMap`, `extOf`, `shouldProcess` — extension handling
  (copyright.go lines 71-81 and 174).
* `baseOf`, `dirSkipped` — the directory-skip test (copyright.go lines
  167-173).
-/

/-- Convert a string literal to the byte/char list model. -/
def str (s : String) : List Char := s.data

/-- Go `strings.HasPrefix p` (argument order: pattern first). -/
def startsWith (p s : List Char) : Bool := p.isPrefixOf s

/-- Go `strings.HasSuffix p` (argument order: pattern first). -/
def endsWith (p s : List Char) : Bool := p.isSuffixOf s

/-- Go `unicode.IsSpace` restricted to the Latin-1 range, as used by
`strings.TrimSpace`. -/
def goIsSpace (c : Char) : Bool :=
  c = '\t' || c = '\n' || c = '\x0b' || c = '\x0c' || c = '\r' || c = ' ' ||
  c = '\x85' || c = '\xa0'

/-- Go `strings.TrimSpace`. -/
def trimSpace (s : List Char) : List Char :=
  ((s.dropWhile goIsSpace).reverse.dropWhile goIsSpace).reverse

/-- `dropCR` from Go's `bufio.ScanLines`: drop one terminal carriage return. -/
def dropCR (s : List Char) : List Char :=
  if s.getLast? = some '\r' then s.dropLast else s

/-- Accumulator worker for `scanLines`; `cur` holds the current line,
reversed. -/
def scanLinesAux (cur : List Char) : List Char → List (List Char)
  | [] => if cur = [] then [] else [dropCR cur.reverse]
  | c :: rest =>
    if c = '\n' then dropCR cur.reverse :: scanLinesAux [] rest
    else scanLinesAux (c :: cur) rest

/-- Go `bufio.Scanner` with `bufio.ScanLines`: split on `'\n'`, dropping the
newline and one preceding `'\r'` per line; a final token is produced only if
non-empty data remains after the last newline. -/
def scanLines (s : List Char) : List (List Char) := scanLinesAux [] s

/-- Rebuild the byte sequence written by the Go code for a list of lines:
each line is written followed by `"\n"`. -/
def unlines : List (List Char) → List Char
  | [] => []
  | l :: rest => l ++ '\n' :: unlines rest

/-- The three comment styles (constants `single`, `multi`, `hash` in
copyright.go; `main` rejects any other value of the `-style` option). -/
inductive Style
  | single
  | multi
  | hash
deriving DecidableEq, Repr

/-- `strings.Replace(template, "$YEAR$", year, -1)`: replace every
occurrence of the literal token `$YEAR$`, scanning left to right,
non-overlapping (specialized to this fixed pattern). -/
def replaceYearTok (year : List Char) : List Char → List Char
  | '$' :: 'Y' :: 'E' :: 'A' :: 'R' :: '$' :: rest => year ++ replaceYearTok year rest
  | c :: rest => c :: replaceYearTok year rest
  | [] => []

/-- `processTemplate` from copyright.go (lines 132-161): substitute the year,
then render each template line as `prefix [space line] newline` into a
buffer, wrapping with `/*` and ` */` marker lines for `multi`. -/
def processTemplate (commentStyle : Style) (template year : List Char) : List Char :=
  let lines := scanLines (replaceYearTok year template)
  let pfx : List Char :=
    match commentStyle with
    | .multi => str " *"
    | .hash => str "#"
    | .single => str "//"
  let buf0 : List Char :=
    match commentStyle with
    | .multi => str "/*\n"
    | _ => []
  let buf1 := lines.foldl
    (fun buf line => buf ++ pfx ++ (if line = [] then [] else ' ' :: line) ++ ['\n']) buf0
  match commentStyle with
  | .multi => buf1 ++ str " */\n"
  | _ => buf1

/-- The states of `loadFile`'s scanner loop (copyright.go lines 212-218). -/
inductive ScanState
  | lookForSlashSlash
  | lookForSlashStar
  | lookForStarSlash
  | lookForHash
  | copyRemainder
deriving DecidableEq, Repr

/-- Initial state selection (copyright.go lines 219-227). -/
def initState : Style → ScanState
  | .multi => .lookForSlashStar
  | .hash => .lookForHash
  | .single => .lookForSlashSlash

/-- One iteration of `loadFile`'s scanner loop (copyright.go lines 229-262):
given the state and the current line, return the next state and the lines
written to the remainder buffer (each written line is followed by `"\n"`). -/
def step : ScanState → List Char → ScanState × List (List Char)
  | .lookForSlashSlash, line =>
    if startsWith (str "//") line then (.lookForSlashSlash, [])
    else (.copyRemainder, [line])
  | .lookForSlashStar, line =>
    if startsWith (str "/*") line then
      if endsWith (str "*/") (trimSpace line) then (.copyRemainder, [])
      else (.lookForStarSlash, [])
    else (.copyRemainder, [])
  | .lookForStarSlash, line =>
    if endsWith (str "*/") (trimSpace line) then (.copyRemainder, [])
    else (.lookForStarSlash, [])
  | .lookForHash, line =>
    if startsWith (str "#") line then (.lookForHash, [])
    else (.copyRemainder, [line])
  | .copyRemainder, line => (.copyRemainder, [line])

/-- Run the scanner loop over all lines, concatenating the emitted lines. -/
def runState : ScanState → List (List Char) → List (List Char)
  | _, [] => []
  | s, l :: rest => (step s l).2 ++ runState (step s l).1 rest

/-- The lines of the remainder buffer produced by `loadFile`
(copyright.go lines 205-267) for a file's content. -/
def loadFileLines (commentStyle : Style) (content : List Char) : List (List Char) :=
  runState (initState commentStyle) (scanLines content)

/-- The remainder buffer produced by `loadFile`, as bytes. -/
def loadFile (commentStyle : Style) (content : List Char) : List Char :=
  unlines (loadFileLines commentStyle content)

/-- The bytes written by `processFile` (copyright.go lines 184-197): the
rendered header; then, if the remainder buffer is non-empty and its first
byte is not `'\n'`, one extra newline; then the remainder buffer. -/
def processFileOutput (header : List Char) (commentStyle : Style) (content : List Char) :
    List Char :=
  match loadFile commentStyle content with
  | [] => header
  | b0 :: bs => header ++ (if b0 = '\n' then [] else ['\n']) ++ b0 :: bs

/-- Accumulator worker for `splitComma`; `cur` holds the current field,
reversed. -/
def splitCommaAux (cur : List Char) : List Char → List (List Char)
  | [] => [cur.reverse]
  | c :: rest =>
    if c = ',' then cur.reverse :: splitCommaAux [] rest
    else splitCommaAux (c :: cur) rest

/-- Go `strings.Split(s, ",")`: split on every comma, keeping empty fields
(the empty string yields one empty field). -/
def splitComma (s : List Char) : List (List Char) := splitCommaAux [] s

/-- Normalization applied by `main` to each non-empty extension entry
(copyright.go lines 73-75): prepend a dot when the entry lacks one. -/
def normExt (e : List Char) : List Char :=
  if startsWith (str ".") e then e else '.' :: e

/-- The extension set built by `main` (copyright.go lines 71-78): split the
`extensions` option on commas, skip empty entries, normalize, and insert
into the map (modelled as a duplicate-free list). -/
def buildExtMap (extensions : List Char) : List (List Char) :=
  (splitComma extensions).foldl
    (fun m e =>
      if e = [] then m
      else if normExt e ∈ m then m else m ++ [normExt e]) []

/-- Go `filepath.Ext`: the suffix of `path` beginning at the final dot in the
final slash-separated element; empty when there is no dot. -/
def extOf (path : List Char) : List Char :=
  let r := path.reverse.takeWhile (fun c => c ≠ '/')
  let pre := r.takeWhile (fun c => c ≠ '.')
  if pre.length = r.length then [] else (pre ++ ['.']).reverse

/-- The test `extMap[filepath.Ext(path)]` guarding the rewrite of a regular
file (copyright.go line 174). -/
def shouldProcess (extensions path : List Char) : Prop :=
  extOf path ∈ buildExtMap extensions

instance (extensions path : List Char) : Decidable (shouldProcess extensions path) :=
  inferInstanceAs (Decidable (_ ∈ _))

/-- Go `filepath.Base` (Unix separator): empty path gives `"."`; otherwise
strip trailing slashes, and if everything was slashes give `"/"`, else the
part after the last slash. -/
def baseOf (path : List Char) : List Char :=
  if path = [] then str "."
  else
    let r := path.reverse.dropWhile (fun c => c = '/')
    if r = [] then str "/" else (r.takeWhile (fun c => c ≠ '/')).reverse

/-- The directory-skip test of `processFile` (copyright.go lines 167-173):
a directory is skipped when its base name differs from `"."` and `".."` and
starts with `"."`. -/
def dirSkipped (path : List Char) : Bool :=
  let b := baseOf path
  if b ≠ str "." ∧ b ≠ str ".." ∧ startsWith (str ".") b then true else false

/-- The rendered header, as the list of lines it is made of (specification
view of `processTemplate`; rendered text is `unlines` of these lines). -/
def headerLines (commentStyle : Style) (template year : List Char) : List (List Char) :=
  let lines := scanLines (replaceYearTok year template)
  let pfx : List Char :=
    match commentStyle with
    | .multi => str " *"
    | .hash => str "#"
    | .single => str "//"
  let body := lines.map (fun line => pfx ++ (if line = [] then [] else ' ' :: line))
  match commentStyle with
  | .multi => str "/*" :: body ++ [str " */"]
  | _ => body

section Lemmas

theorem unlines_append (a b : List (List Char)) :
    unlines (a ++ b) = unlines a ++ unlines b := by
  induction a with
  | nil => rfl
  | cons l r ih => simp [unlines, ih]

theorem unlines_eq_concat (ls : List (List Char)) (h : ls ≠ []) :
    ∃ pre, unlines ls = pre ++ ['\n'] := by
  induction ls with
  | nil => exact absurd rfl h
  | cons l r ih =>
    cases r with
    | nil => exact ⟨l, rfl⟩
    | cons l2 r2 =>
      obtain ⟨pre, hp⟩ := ih (by simp)
      refine ⟨l ++ '\n' :: pre, ?_⟩
      rw [show unlines (l :: l2 :: r2) = l ++ '\n' :: unlines (l2 :: r2) from rfl, hp]
      simp

theorem unlines_getLast? (ls : List (List Char)) (h : ls ≠ []) :
    (unlines ls).getLast? = some '\n' := by
  obtain ⟨pre, hp⟩ := unlines_eq_concat ls h
  rw [hp, List.getLast?_append_of_ne_nil pre (by simp)]
  rfl

theorem unlines_ne_nil (ls : List (List Char)) (h : ls ≠ []) : unlines ls ≠ [] := by
  obtain ⟨pre, hp⟩ := unlines_eq_concat ls h
  simp [hp]

theorem runState_copy (ls : List (List Char)) : runState .copyRemainder ls = ls := by
  induction ls with
  | nil => rfl
  | cons l r ih => simp [runState, step, ih]

/-- Whatever the state, the emitted remainder lines are a tail of the input
lines: the scanner only ever removes a prefix. -/
theorem runState_drop (s : ScanState) (ls : List (List Char)) :
    ∃ k, runState s ls = ls.drop k := by
  induction ls generalizing s with
  | nil => exact ⟨0, rfl⟩
  | cons l r ih =>
    cases s with
    | copyRemainder => exact ⟨0, runState_copy _⟩
    | lookForSlashSlash =>
      cases h : startsWith (str "//") l with
      | true =>
        obtain ⟨k, hk⟩ := ih .lookForSlashSlash
        exact ⟨k + 1, by simp [runState, step, h, hk]⟩
      | false => exact ⟨0, by simp [runState, step, h, runState_copy]⟩
    | lookForHash =>
      cases h : startsWith (str "#") l with
      | true =>
        obtain ⟨k, hk⟩ := ih .lookForHash
        exact ⟨k + 1, by simp [runState, step, h, hk]⟩
      | false => exact ⟨0, by simp [runState, step, h, runState_copy]⟩
    | lookForSlashStar =>
      cases h : startsWith (str "/*") l with
      | true =>
        cases h2 : endsWith (str "*/") (trimSpace l) with
        | true => exact ⟨1, by simp [runState, step, h, h2, runState_copy]⟩
        | false =>
          obtain ⟨k, hk⟩ := ih .lookForStarSlash
          exact ⟨k + 1, by simp [runState, step, h, h2, hk]⟩
      | false => exact ⟨1, by simp [runState, step, h, runState_copy]⟩
    | lookForStarSlash =>
      cases h2 : endsWith (str "*/") (trimSpace l) with
      | true => exact ⟨1, by simp [runState, step, h2, runState_copy]⟩
      | false =>
        obtain ⟨k, hk⟩ := ih .lookForStarSlash
        exact ⟨k + 1, by simp [runState, step, h2, hk]⟩

theorem mem_dropCR {x : Char} {l : List Char} (hx : x ∈ dropCR l) : x ∈ l := by
  unfold dropCR at hx
  split at hx
  · exact (List.dropLast_sublist l).subset hx
  · exact hx

theorem scanLinesAux_line (l : List Char) (h : '\n' ∉ l) (t : List Char) :
    ∀ cur, scanLinesAux cur (l ++ '\n' :: t) =
      dropCR (cur.reverse ++ l) :: scanLinesAux [] t := by
  induction l with
  | nil => intro cur; simp [scanLinesAux]
  | cons c l' ih =>
    intro cur
    have hc : ¬(c = '\n') := fun e => h (e ▸ List.mem_cons_self c l')
    have h' : '\n' ∉ l' := fun m => h (List.mem_cons_of_mem _ m)
    rw [show (c :: l') ++ '\n' :: t = c :: (l' ++ '\n' :: t) from rfl,
      show scanLinesAux cur (c :: (l' ++ '\n' :: t)) =
        scanLinesAux (c :: cur) (l' ++ '\n' :: t) by simp [scanLinesAux, hc],
      ih h' (c :: cur)]
    simp [List.append_assoc]

theorem scanLinesAux_last (l : List Char) (h : '\n' ∉ l) :
    ∀ cur, scanLinesAux cur l =
      if cur.reverse ++ l = [] then [] else [dropCR (cur.reverse ++ l)] := by
  induction l with
  | nil =>
    intro cur
    simp only [scanLinesAux, List.append_nil]
    rcases eq_or_ne cur [] with rfl | hcur
    · simp
    · rw [if_neg hcur, if_neg (by simp [hcur])]
  | cons c l' ih =>
    intro cur
    have hc : ¬(c = '\n') := fun e => h (e ▸ List.mem_cons_self c l')
    have h' : '\n' ∉ l' := fun m => h (List.mem_cons_of_mem _ m)
    rw [show scanLinesAux cur (c :: l') = scanLinesAux (c :: cur) l' by
      simp [scanLinesAux, hc], ih h' (c :: cur)]
    rw [if_neg (by simp), if_neg (by simp)]
    simp [List.append_assoc]

theorem scanLines_cons (l : List Char) (h : '\n' ∉ l) (t : List Char) :
    scanLines (l ++ '\n' :: t) = dropCR l :: scanLines t := by
  rw [scanLines, scanLinesAux_line l h t [], List.reverse_nil, List.nil_append]
  rfl

theorem scanLines_unlines_append (la : List (List Char)) (t : List Char)
    (h : ∀ l ∈ la, '\n' ∉ l) :
    scanLines (unlines la ++ t) = la.map dropCR ++ scanLines t := by
  induction la with
  | nil => simp [unlines]
  | cons l r ih =>
    rw [show unlines (l :: r) ++ t = l ++ '\n' :: (unlines r ++ t) by
      simp [unlines]]
    rw [scanLines_cons l (h l (List.mem_cons_self _ _)) _]
    rw [ih (fun x hx => h x (List.mem_cons_of_mem _ hx))]
    rfl

theorem scanLines_unlines (la : List (List Char))
    (h : ∀ l ∈ la, '\n' ∉ l ∧ dropCR l = l) :
    scanLines (unlines la) = la := by
  have := scanLines_unlines_append la [] (fun l hl => (h l hl).1)
  rw [List.append_nil] at this
  rw [this, show scanLines [] = [] from rfl, List.append_nil]
  exact (List.map_congr_left fun l hl => (h l hl).2).trans (List.map_id _)

theorem scanLinesAux_no_newline (s : List Char) :
    ∀ cur, (∀ c ∈ cur, c ≠ '\n') → ∀ l ∈ scanLinesAux cur s, '\n' ∉ l := by
  induction s with
  | nil =>
    intro cur hcur l hl hnl
    simp only [scanLinesAux] at hl
    split at hl
    · exact absurd hl (List.not_mem_nil l)
    · rw [List.mem_singleton] at hl
      subst hl
      exact hcur '\n' (List.mem_reverse.mp (mem_dropCR hnl)) rfl
  | cons c rest ih =>
    intro cur hcur l hl hnl
    simp only [scanLinesAux] at hl
    by_cases hc : c = '\n'
    · rw [if_pos hc] at hl
      rcases List.mem_cons.mp hl with rfl | hl'
      · exact hcur '\n' (List.mem_reverse.mp (mem_dropCR hnl)) rfl
      · exact ih [] (by simp) l hl' hnl
    · rw [if_neg hc] at hl
      refine ih (c :: cur) ?_ l hl hnl
      intro x hx
      rcases List.mem_cons.mp hx with rfl | hx'
      · exact hc
      · exact hcur x hx'

theorem scanLines_no_newline (s : List Char) : ∀ l ∈ scanLines s, '\n' ∉ l :=
  scanLinesAux_no_newline s [] (by simp)

theorem loadFileLines_no_newline (commentStyle : Style) (content : List Char) :
    ∀ l ∈ loadFileLines commentStyle content, '\n' ∉ l := by
  intro l hl
  obtain ⟨k, hk⟩ := runState_drop (initState commentStyle) (scanLines content)
  rw [loadFileLines, hk] at hl
  exact scanLines_no_newline content l (List.mem_of_mem_drop hl)

theorem startsWith_dropCR {p l : List Char} (hne : p.getLast? ≠ some '\r')
    (h : startsWith p l = true) : startsWith p (dropCR l) = true := by
  unfold dropCR
  split
  · next hlast =>
    obtain ⟨r, hr⟩ := List.isPrefixOf_iff_prefix.mp h
    have hrne : r ≠ [] := by
      rintro rfl
      rw [List.append_nil] at hr
      exact hne (hr ▸ hlast)
    rw [← hr, List.dropLast_append_of_ne_nil _ hrne]
    exact List.isPrefixOf_iff_prefix.mpr ⟨r.dropLast, rfl⟩
  · exact h

theorem trimSpace_concat_cr (x : List Char) : trimSpace (x ++ ['\r']) = trimSpace x := by
  unfold trimSpace
  rw [List.dropWhile_append]
  rcases eq_or_ne (x.dropWhile goIsSpace) [] with he | he
  · rw [he]
    simp [List.dropWhile, goIsSpace]
  · rw [if_neg (by simp [he]), List.reverse_append]
    simp [List.dropWhile, goIsSpace]

theorem trimSpace_dropCR (l : List Char) : trimSpace (dropCR l) = trimSpace l := by
  unfold dropCR
  split
  · next hlast =>
    conv_rhs => rw [← List.dropLast_append_getLast? '\r' hlast]
    exact (trimSpace_concat_cr l.dropLast).symm
  · rfl

theorem runState_slashslash_consume (hl : List (List Char))
    (h : ∀ l ∈ hl, startsWith (str "//") l = true) (rest : List (List Char)) :
    runState .lookForSlashSlash (hl ++ rest) = runState .lookForSlashSlash rest := by
  induction hl with
  | nil => rfl
  | cons l r ih =>
    rw [List.cons_append,
      show runState .lookForSlashSlash (l :: (r ++ rest)) =
        runState .lookForSlashSlash (r ++ rest) by
          simp [runState, step, h l (List.mem_cons_self _ _)]]
    exact ih fun x hx => h x (List.mem_cons_of_mem _ hx)

theorem runState_hash_consume (hl : List (List Char))
    (h : ∀ l ∈ hl, startsWith (str "#") l = true) (rest : List (List Char)) :
    runState .lookForHash (hl ++ rest) = runState .lookForHash rest := by
  induction hl with
  | nil => rfl
  | cons l r ih =>
    rw [List.cons_append,
      show runState .lookForHash (l :: (r ++ rest)) = runState .lookForHash (r ++ rest) by
        simp [runState, step, h l (List.mem_cons_self _ _)]]
    exact ih fun x hx => h x (List.mem_cons_of_mem _ hx)

theorem runState_starslash_consume (hl : List (List Char))
    (h : ∀ l ∈ hl, endsWith (str "*/") (trimSpace l) = false) (rest : List (List Char)) :
    runState .lookForStarSlash (hl ++ rest) = runState .lookForStarSlash rest := by
  induction hl with
  | nil => rfl
  | cons l r ih =>
    rw [List.cons_append,
      show runState .lookForStarSlash (l :: (r ++ rest)) =
        runState .lookForStarSlash (r ++ rest) by
          simp [runState, step, h l (List.mem_cons_self _ _)]]
    exact ih fun x hx => h x (List.mem_cons_of_mem _ hx)

theorem runState_starslash_close {l : List Char}
    (h : endsWith (str "*/") (trimSpace l) = true) (rest : List (List Char)) :
    runState .lookForStarSlash (l :: rest) = rest := by
  simp [runState, step, h, runState_copy]

theorem runState_slashslash_break {l : List Char}
    (h : startsWith (str "//") l = false) (rest : List (List Char)) :
    runState .lookForSlashSlash (l :: rest) = l :: rest := by
  simp [runState, step, h, runState_copy]

theorem runState_hash_break {l : List Char}
    (h : startsWith (str "#") l = false) (rest : List (List Char)) :
    runState .lookForHash (l :: rest) = l :: rest := by
  simp [runState, step, h, runState_copy]

/-- In `single` style, the first retained line never starts with `//`. -/
theorem runState_slashslash_first (ls : List (List Char)) :
    ∀ b r, runState .lookForSlashSlash ls = b :: r → startsWith (str "//") b = false := by
  induction ls with
  | nil => intro b r h; exact absurd h (by simp [runState])
  | cons l rest ih =>
    intro b r h
    cases hb : startsWith (str "//") l with
    | true =>
      rw [show runState .lookForSlashSlash (l :: rest) = runState .lookForSlashSlash rest by
        simp [runState, step, hb]] at h
      exact ih b r h
    | false =>
      rw [runState_slashslash_break hb rest] at h
      rw [← (List.cons_eq_cons.mp h).1]
      exact hb

/-- In `hash` style, the first retained line never starts with `#`. -/
theorem runState_hash_first (ls : List (List Char)) :
    ∀ b r, runState .lookForHash ls = b :: r → startsWith (str "#") b = false := by
  induction ls with
  | nil => intro b r h; exact absurd h (by simp [runState])
  | cons l rest ih =>
    intro b r h
    cases hb : startsWith (str "#") l with
    | true =>
      rw [show runState .lookForHash (l :: rest) = runState .lookForHash rest by
        simp [runState, step, hb]] at h
      exact ih b r h
    | false =>
      rw [runState_hash_break hb rest] at h
      rw [← (List.cons_eq_cons.mp h).1]
      exact hb

theorem foldl_render (pfx : List Char) (lines : List (List Char)) :
    ∀ b0, lines.foldl
        (fun buf line => buf ++ pfx ++ (if line = [] then [] else ' ' :: line) ++ ['\n']) b0
      = b0 ++ unlines (lines.map (fun line => pfx ++ (if line = [] then [] else ' ' :: line))) := by
  induction lines with
  | nil => intro b0; simp [unlines]
  | cons l r ih =>
    intro b0
    rw [List.foldl_cons, ih, List.map_cons,
      show unlines ((pfx ++ (if l = [] then [] else ' ' :: l)) :: List.map _ r) =
        (pfx ++ (if l = [] then [] else ' ' :: l)) ++ '\n' :: unlines (List.map _ r) from rfl]
    simp [List.append_assoc]

/-- `processTemplate` renders exactly the `headerLines`, each terminated by a
newline. -/
theorem processTemplate_eq_unlines (commentStyle : Style) (template year : List Char) :
    processTemplate commentStyle template year =
      unlines (headerLines commentStyle template year) := by
  cases commentStyle with
  | single =>
    rw [show processTemplate .single template year =
      (scanLines (replaceYearTok year template)).foldl
        (fun buf line => buf ++ str "//" ++ (if line = [] then [] else ' ' :: line) ++ ['\n'])
        [] from rfl,
      show headerLines .single template year =
        (scanLines (replaceYearTok year template)).map
          (fun line => str "//" ++ (if line = [] then [] else ' ' :: line)) from rfl,
      foldl_render]
    rfl
  | hash =>
    rw [show processTemplate .hash template year =
      (scanLines (replaceYearTok year template)).foldl
        (fun buf line => buf ++ str "#" ++ (if line = [] then [] else ' ' :: line) ++ ['\n'])
        [] from rfl,
      show headerLines .hash template year =
        (scanLines (replaceYearTok year template)).map
          (fun line => str "#" ++ (if line = [] then [] else ' ' :: line)) from rfl,
      foldl_render]
    rfl
  | multi =>
    rw [show processTemplate .multi template year =
      (scanLines (replaceYearTok year template)).foldl
        (fun buf line => buf ++ str " *" ++ (if line = [] then [] else ' ' :: line) ++ ['\n'])
        (str "/*\n") ++ str " */\n" from rfl,
      show headerLines .multi template year =
        str "/*" :: (scanLines (replaceYearTok year template)).map
          (fun line => str " *" ++ (if line = [] then [] else ' ' :: line)) ++ [str " */"]
        from rfl,
      foldl_render,
      show unlines (str "/*" :: (scanLines (replaceYearTok year template)).map
          (fun line => str " *" ++ (if line = [] then [] else ' ' :: line)) ++ [str " */"]) =
        str "/*" ++ '\n' :: unlines ((scanLines (replaceYearTok year template)).map
          (fun line => str " *" ++ (if line = [] then [] else ' ' :: line)) ++ [str " */"])
        from rfl,
      unlines_append]
    simp [unlines, str, List.append_assoc]

/-- Discard formula, `single` style: the remainder lines are the input lines
with the maximal leading run of `//` lines removed. -/
theorem runState_slashslash_eq_drop (ls : List (List Char)) :
    runState .lookForSlashSlash ls =
      ls.drop ((ls.takeWhile (fun l => startsWith (str "//") l)).length) := by
  induction ls with
  | nil => rfl
  | cons l r ih =>
    cases hb : startsWith (str "//") l with
    | true =>
      rw [show runState .lookForSlashSlash (l :: r) = runState .lookForSlashSlash r by
        simp [runState, step, hb], ih, List.takeWhile_cons, hb]
      simp
    | false =>
      rw [runState_slashslash_break hb r, List.takeWhile_cons, hb]
      simp

/-- Discard formula, `hash` style. -/
theorem runState_hash_eq_drop (ls : List (List Char)) :
    runState .lookForHash ls =
      ls.drop ((ls.takeWhile (fun l => startsWith (str "#") l)).length) := by
  induction ls with
  | nil => rfl
  | cons l r ih =>
    cases hb : startsWith (str "#") l with
    | true =>
      rw [show runState .lookForHash (l :: r) = runState .lookForHash r by
        simp [runState, step, hb], ih, List.takeWhile_cons, hb]
      simp
    | false =>
      rw [runState_hash_break hb r, List.takeWhile_cons, hb]
      simp

/-- Discard formula for the `lookForStarSlash` state: drop every line up to
and including the first one whose trimmed text ends with `*/` (everything,
when there is none). -/
theorem runState_starslash_eq_drop (ls : List (List Char)) :
    runState .lookForStarSlash ls =
      ls.drop ((ls.takeWhile (fun l => !endsWith (str "*/") (trimSpace l))).length + 1) := by
  induction ls with
  | nil => rfl
  | cons l r ih =>
    cases hb : endsWith (str "*/") (trimSpace l) with
    | true =>
      rw [runState_starslash_close hb r, List.takeWhile_cons, hb]
      simp
    | false =>
      rw [show runState .lookForStarSlash (l :: r) = runState .lookForStarSlash r by
        simp [runState, step, hb], ih, List.takeWhile_cons, hb]
      simp

/-- Membership in the extension-map fold of `main` (copyright.go lines
71-78): an extension is in the accumulated map iff it was there already or
is the normalization of a non-empty entry of the list. -/
theorem mem_extFold (parts : List (List Char)) :
    ∀ acc x, (x ∈ parts.foldl
        (fun m e => if e = [] then m else if normExt e ∈ m then m else m ++ [normExt e]) acc) ↔
      x ∈ acc ∨ ∃ e, e ∈ parts ∧ e ≠ [] ∧ x = normExt e := by
  induction parts with
  | nil => intro acc x; simp
  | cons e r ih =>
    intro acc x
    rw [List.foldl_cons, ih]
    by_cases he : e = []
    · subst he
      rw [if_pos rfl]
      constructor
      · rintro (h | ⟨e1, he1, hne, hx⟩)
        · exact .inl h
        · exact .inr ⟨e1, List.mem_cons_of_mem _ he1, hne, hx⟩
      · rintro (h | ⟨e1, he1', hne, hx⟩)
        · exact .inl h
        · rcases List.mem_cons.mp he1' with rfl | he1
          · exact absurd rfl hne
          · exact .inr ⟨e1, he1, hne, hx⟩
    · rw [if_neg he]
      by_cases hm : normExt e ∈ acc
      · rw [if_pos hm]
        constructor
        · rintro (h | ⟨e1, he1, hne, hx⟩)
          · exact .inl h
          · exact .inr ⟨e1, List.mem_cons_of_mem _ he1, hne, hx⟩
        · rintro (h | ⟨e1, he1', hne, hx⟩)
          · exact .inl h
          · rcases List.mem_cons.mp he1' with rfl | he1
            · subst hx; exact .inl hm
            · exact .inr ⟨e1, he1, hne, hx⟩
      · rw [if_neg hm]
        constructor
        · rintro (h | ⟨e1, he1, hne, hx⟩)
          · rcases List.mem_append.mp h with h' | h'
            · exact .inl h'
            · rw [List.mem_singleton] at h'
              exact .inr ⟨e, List.mem_cons_self _ _, he, h'⟩
          · exact .inr ⟨e1, List.mem_cons_of_mem _ he1, hne, hx⟩
        · rintro (h | ⟨e1, he1', hne, hx⟩)
          · exact .inl (List.mem_append.mpr (.inl h))
          · rcases List.mem_cons.mp he1' with rfl | he1
            · subst hx
              exact .inl (List.mem_append.mpr (.inr (List.mem_singleton.mpr rfl)))
            · exact .inr ⟨e1, he1, hne, hx⟩

theorem headerLines_single (t y : List Char) :
    headerLines .single t y = (scanLines (replaceYearTok y t)).map
      (fun line => str "//" ++ (if line = [] then [] else ' ' :: line)) := rfl

theorem headerLines_hash (t y : List Char) :
    headerLines .hash t y = (scanLines (replaceYearTok y t)).map
      (fun line => str "#" ++ (if line = [] then [] else ' ' :: line)) := rfl

theorem headerLines_multi (t y : List Char) :
    headerLines .multi t y = str "/*" :: (scanLines (replaceYearTok y t)).map
      (fun line => str " *" ++ (if line = [] then [] else ' ' :: line)) ++ [str " */"] := rfl

theorem no_newline_render {pfx : List Char} (hp : '\n' ∉ pfx) {line : List Char}
    (hl : '\n' ∉ line) : '\n' ∉ pfx ++ (if line = [] then [] else ' ' :: line) := by
  intro hmem
  rcases List.mem_append.mp hmem with h | h
  · exact hp h
  · split at h
    · exact absurd h (List.not_mem_nil _)
    · rcases List.mem_cons.mp h with he | he
      · exact absurd he (by decide)
      · exact hl he

theorem headerLines_no_newline (commentStyle : Style) (t y : List Char) :
    ∀ l ∈ headerLines commentStyle t y, '\n' ∉ l := by
  cases commentStyle with
  | single =>
    intro l hl
    rw [headerLines_single] at hl
    obtain ⟨line, hline, rfl⟩ := List.mem_map.mp hl
    exact no_newline_render (by decide) (scanLines_no_newline _ line hline)
  | hash =>
    intro l hl
    rw [headerLines_hash] at hl
    obtain ⟨line, hline, rfl⟩ := List.mem_map.mp hl
    exact no_newline_render (by decide) (scanLines_no_newline _ line hline)
  | multi =>
    intro l hl
    rw [headerLines_multi] at hl
    rcases List.mem_cons.mp hl with rfl | hl'
    · decide
    · rcases List.mem_append.mp hl' with h | h
      · obtain ⟨line, hline, rfl⟩ := List.mem_map.mp h
        exact no_newline_render (by decide) (scanLines_no_newline _ line hline)
      · rw [List.mem_singleton] at h
        subst h
        decide

theorem consume_header_single (t y : List Char) (rest : List (List Char)) :
    runState .lookForSlashSlash ((headerLines .single t y).map dropCR ++ rest) =
      runState .lookForSlashSlash rest := by
  apply runState_slashslash_consume
  intro l hl
  obtain ⟨m, hm, rfl⟩ := List.mem_map.mp hl
  rw [headerLines_single] at hm
  obtain ⟨line, hline, rfl⟩ := List.mem_map.mp hm
  exact startsWith_dropCR (by decide)
    (List.isPrefixOf_iff_prefix.mpr ⟨(if line = [] then [] else ' ' :: line), rfl⟩)

theorem consume_header_hash (t y : List Char) (rest : List (List Char)) :
    runState .lookForHash ((headerLines .hash t y).map dropCR ++ rest) =
      runState .lookForHash rest := by
  apply runState_hash_consume
  intro l hl
  obtain ⟨m, hm, rfl⟩ := List.mem_map.mp hl
  rw [headerLines_hash] at hm
  obtain ⟨line, hline, rfl⟩ := List.mem_map.mp hm
  exact startsWith_dropCR (by decide)
    (List.isPrefixOf_iff_prefix.mpr ⟨(if line = [] then [] else ' ' :: line), rfl⟩)

theorem runState_slashstar_open {l : List Char} (h1 : startsWith (str "/*") l = true)
    (h2 : endsWith (str "*/") (trimSpace l) = false) (rest : List (List Char)) :
    runState .lookForSlashStar (l :: rest) = runState .lookForStarSlash rest := by
  simp [runState, step, h1, h2]

theorem consume_header_multi (t y : List Char)
    (hB : ∀ line ∈ scanLines (replaceYearTok y t), endsWith (str "*/")
      (trimSpace (str " *" ++ (if line = [] then [] else ' ' :: line))) = false)
    (rest : List (List Char)) :
    runState .lookForSlashStar ((headerLines .multi t y).map dropCR ++ rest) = rest := by
  have hbody : ∀ l ∈ ((scanLines (replaceYearTok y t)).map
      (fun line => str " *" ++ (if line = [] then [] else ' ' :: line))).map dropCR,
      endsWith (str "*/") (trimSpace l) = false := by
    intro l hl
    obtain ⟨m, hm, rfl⟩ := List.mem_map.mp hl
    obtain ⟨line, hline, rfl⟩ := List.mem_map.mp hm
    rw [trimSpace_dropCR]
    exact hB line hline
  rw [headerLines_multi, List.map_append, List.map_cons,
    show dropCR (str "/*") = str "/*" from rfl,
    show List.map dropCR [str " */"] = [str " */"] from rfl,
    List.cons_append, List.cons_append, List.append_assoc,
    runState_slashstar_open (by decide) (by decide),
    runState_starslash_consume _ hbody _,
    show ([str " */"] ++ rest) = str " */" :: rest from rfl]
  exact runState_starslash_close (by decide) rest

/-- After the (re-scanned) header lines, a remainder that is empty or opens
with an empty line is passed through verbatim by a second scan, for every
style. -/
theorem rerun_after_header (commentStyle : Style) (t y : List Char)
    (hB : commentStyle = .multi → ∀ line ∈ scanLines (replaceYearTok y t),
      endsWith (str "*/")
        (trimSpace (str " *" ++ (if line = [] then [] else ' ' :: line))) = false)
    (rest : List (List Char)) (hrest : rest = [] ∨ ∃ tail, rest = [] :: tail) :
    runState (initState commentStyle)
      ((headerLines commentStyle t y).map dropCR ++ rest) = rest := by
  cases commentStyle with
  | single =>
    rw [show initState .single = .lookForSlashSlash from rfl, consume_header_single]
    rcases hrest with rfl | ⟨tail, rfl⟩
    · rfl
    · exact runState_slashslash_break (by decide) tail
  | hash =>
    rw [show initState .hash = .lookForHash from rfl, consume_header_hash]
    rcases hrest with rfl | ⟨tail, rfl⟩
    · rfl
    · exact runState_hash_break (by decide) tail
  | multi =>
    rw [show initState .multi = .lookForSlashStar from rfl,
      consume_header_multi t y (hB rfl)]

theorem scanLines_unlines_eq (la : List (List Char)) (h : ∀ l ∈ la, '\n' ∉ l) :
    scanLines (unlines la) = la.map dropCR := by
  have h2 := scanLines_unlines_append la [] h
  rw [List.append_nil] at h2
  rw [h2, show scanLines [] = [] from rfl, List.append_nil]

theorem processFileOutput_of_nil (header : List Char) (commentStyle : Style)
    (content : List Char) (h : loadFileLines commentStyle content = []) :
    processFileOutput header commentStyle content = header := by
  rw [processFileOutput.eq_def, loadFile, h]
  rfl

theorem processFileOutput_of_emptyline (header : List Char) (commentStyle : Style)
    (content : List Char) (bs : List (List Char))
    (h : loadFileLines commentStyle content = [] :: bs) :
    processFileOutput header commentStyle content = header ++ '\n' :: unlines bs := by
  rw [processFileOutput.eq_def, loadFile, h,
    show unlines ([] :: bs) = '\n' :: unlines bs from rfl]
  simp

theorem processFileOutput_of_line (header : List Char) (commentStyle : Style)
    (content : List Char) (c : Char) (cs : List Char) (bs : List (List Char))
    (h : loadFileLines commentStyle content = (c :: cs) :: bs) (hc : c ≠ '\n') :
    processFileOutput header commentStyle content =
      header ++ '\n' :: unlines ((c :: cs) :: bs) := by
  rw [processFileOutput.eq_def, loadFile, h,
    show unlines ((c :: cs) :: bs) = c :: (cs ++ '\n' :: unlines bs) by simp [unlines]]
  simp [hc]

end Lemmas

section Claims

/-- C1, counterexample: with style `single` and a file whose leading comment
block is the non-copyright line `// +build linux`, the code removes that
block from the output instead of prepending it back after the rendered
header, contradicting the claim. -/
theorem claim_C1_counterexample :
    processFileOutput
        (processTemplate .single (str "Copyright (c) $YEAR$ by X.") (str "2025"))
        .single (str "// +build linux\npackage x\n") =
      str "// Copyright (c) 2025 by X.\n\npackage x\n" ∧
    processFileOutput
        (processTemplate .single (str "Copyright (c) $YEAR$ by X.") (str "2025"))
        .single (str "// +build linux\npackage x\n") ≠
      str "// Copyright (c) 2025 by X.\n" ++ str "// +build linux\npackage x\n" :=
  ⟨by decide, by decide⟩

/-- C1, amended: `loadFile` removes the leading comment block
unconditionally — whether or not it mentions copyright, nothing is ever
prepended back.  For `single` and `hash` the remainder is the file minus
its maximal leading run of `//` (resp. `#`) lines; for `multi` it is the
file minus everything through the line whose trimmed text ends with `*/`
(minus the whole file when that line is missing), and minus the first line
when the file does not open with `/*`. -/
theorem claim_C1_amended :
    (∀ content, loadFileLines .single content =
      (scanLines content).drop
        (((scanLines content).takeWhile (fun l => startsWith (str "//") l)).length)) ∧
    (∀ content, loadFileLines .hash content =
      (scanLines content).drop
        (((scanLines content).takeWhile (fun l => startsWith (str "#") l)).length)) ∧
    (∀ content, loadFileLines .multi content =
      match scanLines content with
      | [] => []
      | l :: rest =>
        if startsWith (str "/*") l then
          if endsWith (str "*/") (trimSpace l) then rest
          else rest.drop
            ((rest.takeWhile (fun m => !endsWith (str "*/") (trimSpace m))).length + 1)
        else rest) := by
  refine ⟨fun c => runState_slashslash_eq_drop _, fun c => runState_hash_eq_drop _,
    fun c => ?_⟩
  rw [loadFileLines, show initState .multi = .lookForSlashStar from rfl]
  cases h : scanLines c with
  | nil => rfl
  | cons l rest =>
    cases h1 : startsWith (str "/*") l with
    | true =>
      cases h2 : endsWith (str "*/") (trimSpace l) with
      | true => simp [runState, step, h1, h2, runState_copy]
      | false =>
        rw [show runState .lookForSlashStar (l :: rest) = runState .lookForStarSlash rest by
          simp [runState, step, h1, h2], runState_starslash_eq_drop]
        simp [h1, h2]
    | false => simp [runState, step, h1, runState_copy]

/-- C2, counterexample: (a) with style `single` and content `"x"` nothing is
discarded (the single line is retained), yet the remainder is `"x\n"`, a
byte was added; (b) with style `multi` and content `"alpha\nbeta\n"` no
leading comment block exists, yet the non-discarded first line `alpha` is
missing from the remainder. -/
theorem claim_C2_counterexample :
    (loadFileLines .single (str "x") = [str "x"] ∧
      loadFile .single (str "x") = str "x\n" ∧ loadFile .single (str "x") ≠ str "x") ∧
    loadFile .multi (str "alpha\nbeta\n") = str "beta\n" :=
  ⟨⟨by decide, by decide, by decide⟩, by decide⟩

/-- C2, amended: when the original file is a sequence of newline-terminated
lines, none containing an interior newline or ending in a carriage return,
the remainder produced by `loadFile` is exactly the original content with
some prefix of whole lines removed — every retained byte is preserved
unaltered and in order. -/
theorem claim_C2_amended (commentStyle : Style) (la : List (List Char))
    (h : ∀ l ∈ la, '\n' ∉ l ∧ dropCR l = l) :
    ∃ k, loadFileLines commentStyle (unlines la) = la.drop k ∧
      loadFile commentStyle (unlines la) = unlines (la.drop k) := by
  have hs : scanLines (unlines la) = la := scanLines_unlines la h
  obtain ⟨k, hk⟩ := runState_drop (initState commentStyle) la
  refine ⟨k, ?_, ?_⟩
  · rw [loadFileLines, hs, hk]
  · rw [loadFile, loadFileLines, hs, hk]

/-- C2, witness: the amended statement at a two-line `go` file. -/
theorem claim_C2_witness :
    ∃ k, loadFileLines .single (unlines [str "package x", str "import y"]) =
        [str "package x", str "import y"].drop k ∧
      loadFile .single (unlines [str "package x", str "import y"]) =
        unlines ([str "package x", str "import y"].drop k) :=
  claim_C2_amended .single [str "package x", str "import y"] (by decide)

/-- C3, counterexample: idempotence fails as stated.  (a) Style `single`,
template `C`, file `"x\r\r"`: the first run keeps the line `x\r`, whose
trailing carriage return is then eaten by the second run's line scanner, so
the second run changes the file again.  (b) Style `multi`, template `x */`:
the rendered header contains an interior line whose trimmed text ends with
`*/`, so the second run's classifier stops there and duplicates the
closing marker line into the remainder. -/
theorem claim_C3_counterexample :
    processFileOutput (processTemplate .single (str "C") (str "2025")) .single
        (processFileOutput (processTemplate .single (str "C") (str "2025")) .single
          (str "x\r\r")) ≠
      processFileOutput (processTemplate .single (str "C") (str "2025")) .single
        (str "x\r\r") ∧
    processFileOutput (processTemplate .multi (str "x */") (str "2025")) .multi
        (processFileOutput (processTemplate .multi (str "x */") (str "2025")) .multi
          (str "code\n")) ≠
      processFileOutput (processTemplate .multi (str "x */") (str "2025")) .multi
        (str "code\n") :=
  ⟨by decide, by decide⟩

/-- C3, amended: rewriting is idempotent provided (i) no remainder line kept
by the first run ends in a carriage return, and (ii) for style `multi`, no
rendered template line's trimmed text ends with `*/`.  Under these
conditions a second run with the same configuration reproduces the first
run's output byte for byte. -/
theorem claim_C3_amended (commentStyle : Style) (template year content : List Char)
    (hA : ∀ l ∈ loadFileLines commentStyle content, dropCR l = l)
    (hB : commentStyle = .multi → ∀ line ∈ scanLines (replaceYearTok year template),
      endsWith (str "*/")
        (trimSpace (str " *" ++ (if line = [] then [] else ' ' :: line))) = false) :
    processFileOutput (processTemplate commentStyle template year) commentStyle
        (processFileOutput (processTemplate commentStyle template year) commentStyle content)
      = processFileOutput (processTemplate commentStyle template year) commentStyle
          content := by
  have hHnl : ∀ l ∈ headerLines commentStyle template year, '\n' ∉ l :=
    headerLines_no_newline commentStyle template year
  have hbs_nl : ∀ l ∈ loadFileLines commentStyle content, '\n' ∉ l :=
    loadFileLines_no_newline commentStyle content
  have hH : processTemplate commentStyle template year =
      unlines (headerLines commentStyle template year) :=
    processTemplate_eq_unlines commentStyle template year
  cases hb : loadFileLines commentStyle content with
  | nil =>
    rw [processFileOutput_of_nil _ _ _ hb]
    apply processFileOutput_of_nil
    rw [loadFileLines, hH, scanLines_unlines_eq _ hHnl]
    have h2 := rerun_after_header commentStyle template year hB [] (.inl rfl)
    rw [List.append_nil] at h2
    exact h2
  | cons b0 bs =>
    have hA' : ∀ l ∈ b0 :: bs, dropCR l = l := fun l hl => hA l (hb.symm ▸ hl)
    have hnl' : ∀ l ∈ b0 :: bs, '\n' ∉ l := fun l hl => hbs_nl l (hb.symm ▸ hl)
    cases b0 with
    | nil =>
      rw [processFileOutput_of_emptyline _ _ _ bs hb]
      have hscanB : scanLines (unlines ([] :: bs)) = [] :: bs :=
        scanLines_unlines _ (fun l hl => ⟨hnl' l hl, hA' l hl⟩)
      have hlines2 : loadFileLines commentStyle
          (processTemplate commentStyle template year ++ '\n' :: unlines bs) =
          [] :: bs := by
        rw [loadFileLines, hH, scanLines_unlines_append _ _ hHnl,
          show ('\n' :: unlines bs) = unlines ([] :: bs) from rfl, hscanB]
        exact rerun_after_header commentStyle template year hB ([] :: bs) (.inr ⟨bs, rfl⟩)
      rw [processFileOutput_of_emptyline _ _ _ bs hlines2]
    | cons c cs =>
      have hc : c ≠ '\n' := fun e => hnl' (c :: cs) (List.mem_cons_self _ _)
        (by rw [e]; exact List.mem_cons_self _ _)
      rw [processFileOutput_of_line _ _ _ c cs bs hb hc]
      have hscanB : scanLines (unlines ([] :: (c :: cs) :: bs)) = [] :: (c :: cs) :: bs := by
        refine scanLines_unlines _ ?_
        intro l hl
        rcases List.mem_cons.mp hl with rfl | hl'
        · exact ⟨by decide, rfl⟩
        · exact ⟨hnl' l hl', hA' l hl'⟩
      have hlines2 : loadFileLines commentStyle
          (processTemplate commentStyle template year ++
            '\n' :: unlines ((c :: cs) :: bs)) = [] :: (c :: cs) :: bs := by
        rw [loadFileLines, hH, scanLines_unlines_append _ _ hHnl,
          show ('\n' :: unlines ((c :: cs) :: bs)) = unlines ([] :: (c :: cs) :: bs)
            from rfl, hscanB]
        exact rerun_after_header commentStyle template year hB ([] :: (c :: cs) :: bs)
          (.inr ⟨(c :: cs) :: bs, rfl⟩)
      rw [processFileOutput_of_emptyline _ _ _ _ hlines2]

/-- C3, witness: the amended idempotence at style `single`, the claim's
template, and a one-line file. -/
theorem claim_C3_witness :
    processFileOutput
        (processTemplate .single (str "Copyright (c) $YEAR$ by X.") (str "2025")) .single
        (processFileOutput
          (processTemplate .single (str "Copyright (c) $YEAR$ by X.") (str "2025")) .single
          (str "package x\n"))
      = processFileOutput
          (processTemplate .single (str "Copyright (c) $YEAR$ by X.") (str "2025")) .single
          (str "package x\n") :=
  claim_C3_amended .single (str "Copyright (c) $YEAR$ by X.") (str "2025")
    (str "package x\n") (by decide) (fun h => Style.noConfusion h)

/-- C4: evaluation at the failing input.  With style `multi`, a first line
that does not start with `/*` is dropped entirely — it reaches neither the
discarded block nor the remainder — while `single` and `hash` retain the
non-matching first line, so the claim's `entire file becomes the
remainder` holds for them but is violated by `multi`. -/
theorem claim_C4_bug :
    loadFileLines .multi (str "package main\nimport x\n") = [str "import x"] ∧
    loadFileLines .single (str "package main\nimport x\n") =
      [str "package main", str "import x"] ∧
    loadFileLines .hash (str "package main\nimport x\n") =
      [str "package main", str "import x"] :=
  ⟨by decide, by decide, by decide⟩

/-- C5: the Header Renderer substitutes every occurrence of `$YEAR$` with
the years string and renders each line as prefix, optional space and text,
newline-terminated; the two concrete renders of the claim evaluate exactly
as stated. -/
theorem claim_C5 :
    processTemplate .single (str "Copyright (c) $YEAR$ by X.") (str "2025") =
      str "// Copyright (c) 2025 by X.\n" ∧
    processTemplate .multi (str "A.\nB.") (str "2025") = str "/*\n * A.\n * B.\n */\n" ∧
    replaceYearTok (str "2025") (str "a $YEAR$ b $YEAR$ c") = str "a 2025 b 2025 c" ∧
    (∀ template year, processTemplate .single template year =
      unlines ((scanLines (replaceYearTok year template)).map
        (fun line => str "//" ++ (if line = [] then [] else ' ' :: line)))) := by
  refine ⟨by decide, by decide, by decide, fun template year => ?_⟩
  rw [processTemplate_eq_unlines]
  rfl

/-- C6: the bytes written are the header, then one extra newline exactly
when the remainder buffer is non-empty and does not begin with a newline,
then the remainder buffer. -/
theorem claim_C6 :
    (∀ header commentStyle content, processFileOutput header commentStyle content =
      header ++
        (if loadFile commentStyle content = [] then []
         else if (loadFile commentStyle content).head? = some '\n' then
           loadFile commentStyle content
         else '\n' :: loadFile commentStyle content)) ∧
    processFileOutput (str "H\n") .single (str "code\n") = str "H\n\ncode\n" ∧
    processFileOutput (str "H\n") .single (str "\ncode\n") = str "H\n\ncode\n" ∧
    processFileOutput (str "H\n") .single (str "// old\n") = str "H\n" := by
  refine ⟨fun header commentStyle content => ?_, by decide, by decide, by decide⟩
  rw [processFileOutput.eq_def]
  cases hb : loadFile commentStyle content with
  | nil => simp
  | cons b0 bs =>
    by_cases h0 : b0 = '\n'
    · subst h0; simp
    · simp [h0]

/-- C7: a regular file is rewritten iff its extension belongs to the
extension set, which contains exactly the dot-normalizations of the
non-empty comma-separated entries; with extensions `go`, `main.go` is
processed and `main.txt` is not. -/
theorem claim_C7 :
    (∀ extensions x, x ∈ buildExtMap extensions ↔
      ∃ e, e ∈ splitComma extensions ∧ e ≠ [] ∧ x = normExt e) ∧
    (∀ extensions path, shouldProcess extensions path ↔
      extOf path ∈ buildExtMap extensions) ∧
    buildExtMap (str "go") = [str ".go"] ∧
    shouldProcess (str "go") (str "main.go") ∧
    ¬ shouldProcess (str "go") (str "main.txt") := by
  refine ⟨fun extensions x => ?_, fun _ _ => Iff.rfl, by decide, by decide, by decide⟩
  rw [buildExtMap, mem_extFold]
  simp

/-- C8: a directory is skipped iff its base name starts with `.` and is
neither `.` nor `..`. -/
theorem claim_C8 :
    (∀ path, dirSkipped path = true ↔
      (startsWith (str ".") (baseOf path) = true ∧ baseOf path ≠ str "." ∧
        baseOf path ≠ str "..")) ∧
    dirSkipped (str "/x/.git") = true ∧ dirSkipped (str ".") = false ∧
    dirSkipped (str "..") = false ∧ dirSkipped (str "src") = false ∧
    dirSkipped (str "a/..") = false := by
  refine ⟨fun path => ?_, by decide, by decide, by decide, by decide, by decide⟩
  rw [dirSkipped]
  by_cases h : (baseOf path ≠ str "." ∧ baseOf path ≠ str ".." ∧
      startsWith (str ".") (baseOf path))
  · rw [if_pos h]
    exact ⟨fun _ => ⟨h.2.2, h.1, h.2.1⟩, fun _ => rfl⟩
  · rw [if_neg h]
    constructor
    · intro hf; exact absurd hf (by simp)
    · rintro ⟨q1, q2, q3⟩; exact absurd ⟨q2, q3, q1⟩ h

/-- C9: with style `multi`, a file opening with `/*` but containing no line
whose trimmed text ends with `*/` is consumed whole: the remainder is empty
and the rewritten file is exactly the rendered header. -/
theorem claim_C9 (header content : List Char) (l : List Char) (rest : List (List Char))
    (h0 : scanLines content = l :: rest)
    (h1 : startsWith (str "/*") l = true)
    (h2 : ∀ m ∈ scanLines content, endsWith (str "*/") (trimSpace m) = false) :
    loadFileLines .multi content = [] ∧ processFileOutput header .multi content = header := by
  have hl2 : endsWith (str "*/") (trimSpace l) = false := h2 l (h0 ▸ List.mem_cons_self _ _)
  have hbuf : loadFileLines .multi content = [] := by
    rw [loadFileLines, show initState .multi = .lookForSlashStar from rfl, h0,
      show runState .lookForSlashStar (l :: rest) = runState .lookForStarSlash rest by
        simp [runState, step, h1, hl2]]
    have hr : ∀ m ∈ rest, endsWith (str "*/") (trimSpace m) = false :=
      fun m hm => h2 m (h0 ▸ List.mem_cons_of_mem _ hm)
    calc runState .lookForStarSlash rest
        = runState .lookForStarSlash (rest ++ []) := by rw [List.append_nil]
      _ = runState .lookForStarSlash [] := runState_starslash_consume rest hr []
      _ = [] := rfl
  refine ⟨hbuf, ?_⟩
  rw [processFileOutput.eq_def, loadFile, hbuf]
  rfl

/-- C9, witness: a two-line unterminated block comment. -/
theorem claim_C9_witness :
    loadFileLines .multi (str "/* a\nb\n") = [] ∧
      processFileOutput (str "H\n") .multi (str "/* a\nb\n") = str "H\n" :=
  claim_C9 (str "H\n") (str "/* a\nb\n") (str "/* a") [str "b"] (by decide) (by decide)
    (by decide)

/-- C10, counterexample: with an empty template and style `single` the
rendered header is empty, so a file consisting of one discarded `//` line
is rewritten to empty content, which does not end with a newline. -/
theorem claim_C10_counterexample :
    processTemplate .single [] (str "2025") = [] ∧
    processFileOutput (processTemplate .single [] (str "2025")) .single (str "// old\n")
      = [] :=
  ⟨by decide, by decide⟩

/-- C10, amended: whenever the rendered header is non-empty (in particular
for any non-empty template, and always for style `multi`), the rewritten
content ends with a newline character, even when the original file did
not. -/
theorem claim_C10_amended (commentStyle : Style) (template year content : List Char)
    (h : processTemplate commentStyle template year ≠ []) :
    (processFileOutput (processTemplate commentStyle template year) commentStyle
      content).getLast? = some '\n' := by
  rw [processFileOutput.eq_def]
  cases hb : loadFile commentStyle content with
  | nil =>
    rw [processTemplate_eq_unlines] at h ⊢
    refine unlines_getLast? _ ?_
    rintro he
    rw [he] at h
    exact h rfl
  | cons b0 bs =>
    have hBne : loadFileLines commentStyle content ≠ [] := by
      rintro he
      rw [loadFile, he] at hb
      exact List.noConfusion hb
    have hlast : (b0 :: bs).getLast? = some '\n' := by
      rw [← hb, loadFile]
      exact unlines_getLast? _ hBne
    rw [List.getLast?_append_of_ne_nil _ (by simp)]
    exact hlast

/-- C10, witness: the amended statement at a non-empty template and a file
with no terminating newline. -/
theorem claim_C10_witness :
    processTemplate .single (str "C") (str "2025") ≠ [] ∧
      (processFileOutput (processTemplate .single (str "C") (str "2025")) .single
        (str "x")).getLast? = some '\n' :=
  ⟨by decide, claim_C10_amended .single (str "C") (str "2025") (str "x") (by decide)⟩

end Claims

-- Sanity checks on concrete inputs (mirroring runs of the Go tool).
example : buildExtMap (str "go") = [str ".go"] := by decide
example : buildExtMap (str "go,,.txt") = [str ".go", str ".txt"] := by decide
example : extOf (str "main.go") = str ".go" := by decide
example : extOf (str "a.b/c") = [] := by decide
example : baseOf (str "a/b/") = str "b" := by decide
example : dirSkipped (str "x/.git") = true := by decide
example : dirSkipped (str ".") = false := by decide
example : scanLines (str "a\nb") = [str "a", str "b"] := by decide
example : scanLines (str "a\r\nb\n") = [str "a", str "b"] := by decide
example : scanLines (str "") = [] := by decide
example :
    processTemplate .single (str "Copyright (c) $YEAR$ by X.") (str "2025") =
      str "// Copyright (c) 2025 by X.\n" := by decide
example :
    processTemplate .multi (str "A.\nB.") (str "2025") =
      str "/*\n * A.\n * B.\n */\n" := by decide
example :
    loadFile .single (str "// old\npackage x\n") = str "package x\n" := by decide
example :
    processFileOutput (str "H\n") .single (str "// old\npackage x\n") =
      str "H\n\npackage x\n" := by decide
